import Mathlib

/-!
# Verification of the Clarity noisy key exchange (src/Clarity.js)

Shallow embedding of the program: JavaScript `BigInt` values are modelled as `ℤ`,
JS `%` on BigInt (truncating remainder) as `Int.tmod`, JS `>>`/`&`/`<<`/`|` on
BigInt (arbitrary-precision two's complement) as `Int.shiftRight` / `Int.land` /
`Int.shiftLeft` / `Int.lor`.  Randomness is made explicit: every function that
draws random bytes in the source takes those bytes as an argument here.
-/

namespace Clarity

/-- `const Q = (1n << 256n) - 189n` -/
def Q : ℤ := 1 <<< (256 : ℤ) - 189

/-- `const SECRET_MAX = 1n << 40n` (40-bit secrets for multiplication) -/
def SECRET_MAX : ℤ := 1 <<< (40 : ℤ)

/-- `const NUM_BITS = 256` -/
def NUM_BITS : ℕ := 256

theorem Q_eq : Q = 2 ^ 256 - 189 := by
  have h : (1 : ℤ) <<< ((256 : ℕ) : ℤ) = ((2 ^ 256 : ℕ) : ℤ) := Int.one_shiftLeft 256
  push_cast at h
  rw [Q, h]
  norm_num

theorem SECRET_MAX_eq : SECRET_MAX = 2 ^ 40 := by
  have h : (1 : ℤ) <<< ((40 : ℕ) : ℤ) = ((2 ^ 40 : ℕ) : ℤ) := Int.one_shiftLeft 40
  push_cast at h
  rw [SECRET_MAX, h]
  norm_num

/-- `max.toString(2).length`: the number of binary digits of a non-negative
BigInt (`"0"` has length 1). -/
def bitLengthJs (m : ℕ) : ℕ := if m = 0 then 1 else Nat.log2 m + 1

/-- `const bytes = Math.ceil(bits / 8)` in `randomBigInt`. -/
def bytesNeeded (max : ℤ) : ℕ := (bitLengthJs max.toNat + 7) / 8

/-- The loop `result = (result << 8n) + BigInt(array[i])` of `randomBigInt`,
starting from `result = 0n` and running over the drawn byte array. -/
def assembleBytes (array : List ℕ) : ℤ :=
  array.foldl (fun (result : ℤ) (b : ℕ) => (result <<< (8 : ℤ)) + (b : ℤ)) 0

/-- `randomBigInt(max)` as a deterministic function of the bytes the
Web Crypto API returned: assemble the bytes big-endian, then `% max`. -/
def randomBigInt (max : ℤ) (array : List ℕ) : ℤ :=
  (assembleBytes array).tmod max

/-- `const noiseCategory = randomByte % 3; const noise = BigInt(noiseCategory - 1)`
in `addNoise`. -/
def noiseFromByte (randomByte : ℕ) : ℤ := ((randomByte % 3 : ℕ) : ℤ) - 1

/-- `addNoise(value)` as a function of the one random byte it draws:
`(value + noise + Q) % Q`. -/
def addNoise (value : ℤ) (randomByte : ℕ) : ℤ :=
  (value + noiseFromByte randomByte + Q).tmod Q

/-- One entry of `aliceSecrets.map((secret, i) => (G_ARRAY[i] * secret) % Q)`. -/
def publicValue (g secret : ℤ) : ℤ := (g * secret).tmod Q

/-- `secrets.map((secret, i) => (G_ARRAY[i] * secret) % Q)` with the basis made
explicit (elementwise over basis and secrets). -/
def computePublics (basis secrets : List ℤ) : List ℤ :=
  List.zipWith publicValue basis secrets

/-- `publics.map(pub => addNoise(pub))`, with the per-call random bytes
made explicit. -/
def addNoiseAll (publics : List ℤ) (noiseBytes : List ℕ) : List ℤ :=
  List.zipWith addNoise publics noiseBytes

/-- One entry of `bobPublicsNoisy.map((pub, i) => (pub * aliceSecrets[i]) % Q)`. -/
def sharedValue (pub secret : ℤ) : ℤ := (pub * secret).tmod Q

/-- `noisyPublics.map((pub, i) => (pub * secrets[i]) % Q)`. -/
def computeShared (noisyPublics secrets : List ℤ) : List ℤ :=
  List.zipWith sharedValue noisyPublics secrets

/-- `(val >> 255n) & 1n` — the most-significant-bit extraction used for the key. -/
def extractBit (val : ℤ) : ℤ := Int.land (val >>> (255 : ℤ)) 1

/-- `shared.map(val => (val >> 255n) & 1n)`. -/
def extractKey (shared : List ℤ) : List ℤ := shared.map extractBit

/-- `bits.reduce((acc, bit) => (acc << 1n) | bit, 0n)`. -/
def bitsToBigInt (bits : List ℤ) : ℤ :=
  bits.foldl (fun acc bit => Int.lor (acc <<< (1 : ℤ)) bit) 0

/-- `alicePublicsNoisy` of the source: noise applied to Alice's publics.
(`G` is `G_ARRAY`; the noise bytes are Alice's 256 independent draws.) -/
def alicePublicsNoisy (G aliceSecrets : List ℤ) (aliceNoise : List ℕ) : List ℤ :=
  addNoiseAll (computePublics G aliceSecrets) aliceNoise

/-- `bobPublicsNoisy` of the source. -/
def bobPublicsNoisy (G bobSecrets : List ℤ) (bobNoise : List ℕ) : List ℤ :=
  addNoiseAll (computePublics G bobSecrets) bobNoise

/-- `const sharedAlice = bobPublicsNoisy.map((pub, i) => (pub * aliceSecrets[i]) % Q)` -/
def sharedAlice (G aliceSecrets bobSecrets : List ℤ) (bobNoise : List ℕ) : List ℤ :=
  computeShared (bobPublicsNoisy G bobSecrets bobNoise) aliceSecrets

/-- `const sharedBob = alicePublicsNoisy.map((pub, i) => (pub * bobSecrets[i]) % Q)` -/
def sharedBob (G aliceSecrets bobSecrets : List ℤ) (aliceNoise : List ℕ) : List ℤ :=
  computeShared (alicePublicsNoisy G aliceSecrets aliceNoise) bobSecrets

/-- `const keyAlice = sharedAlice.map(val => (val >> 255n) & 1n)` -/
def keyAlice (G aliceSecrets bobSecrets : List ℤ) (bobNoise : List ℕ) : List ℤ :=
  extractKey (sharedAlice G aliceSecrets bobSecrets bobNoise)

/-- `const keyBob = sharedBob.map(val => (val >> 255n) & 1n)` -/
def keyBob (G aliceSecrets bobSecrets : List ℤ) (aliceNoise : List ℕ) : List ℤ :=
  extractKey (sharedBob G aliceSecrets bobSecrets aliceNoise)

/-! ## Bridging lemmas from the bitwise operations to arithmetic -/

theorem extractBit_eq_div (v : ℤ) (hv : 0 ≤ v) : extractBit v = v / 2 ^ 255 % 2 := by
  obtain ⟨n, rfl⟩ := Int.eq_ofNat_of_zero_le hv
  have h1 : ((n : ℤ) >>> ((255 : ℕ) : ℤ)) = ((n >>> 255 : ℕ) : ℤ) :=
    Int.shiftRight_coe_nat n 255
  have h2 : Int.land ((n >>> 255 : ℕ) : ℤ) ((1 : ℕ) : ℤ) = ((n >>> 255 &&& 1 : ℕ) : ℤ) := rfl
  rw [extractBit]
  norm_num at h1
  rw [h1]
  norm_num at h2
  rw [h2, Nat.shiftRight_eq_div_pow]
  push_cast
  norm_num

theorem Q_pos : (0 : ℤ) < Q := by rw [Q_eq]; norm_num

set_option maxRecDepth 8000 in
/-- For a value in `[0, Q)` the extracted bit is the indicator of `2^255 ≤ v`. -/
theorem extractBit_eq_ite (v : ℤ) (h0 : 0 ≤ v) (hQ : v < Q) :
    extractBit v = if 2 ^ 255 ≤ v then 1 else 0 := by
  rw [extractBit_eq_div v h0]
  rw [Q_eq] at hQ
  split_ifs with h <;> omega

/-! ## Base-`B` positional evaluation (Horner form), used to analyse
`assembleBytes`, `bitsToBigInt` and the hexadecimal round trip. -/

/-- Most-significant-digit-first Horner evaluation in base `B`. -/
def horner (B : ℤ) (l : List ℤ) : ℤ := l.foldl (fun acc d => B * acc + d) 0

theorem horner_foldl_acc (B : ℤ) (l : List ℤ) (acc : ℤ) :
    l.foldl (fun acc d => B * acc + d) acc = acc * B ^ l.length + horner B l := by
  induction l generalizing acc with
  | nil => simp [horner]
  | cons d t ih =>
    simp only [horner, List.foldl_cons, List.length_cons]
    rw [ih (B * acc + d), ih (B * 0 + d)]
    ring

theorem horner_cons (B d : ℤ) (t : List ℤ) :
    horner B (d :: t) = d * B ^ t.length + horner B t := by
  rw [horner, List.foldl_cons, horner_foldl_acc]
  ring

theorem horner_nonneg (B : ℤ) (l : List ℤ) (hB : 0 ≤ B) (h : ∀ d ∈ l, 0 ≤ d) :
    0 ≤ horner B l := by
  induction l with
  | nil => simp [horner]
  | cons d t ih =>
    rw [horner_cons]
    have hd : 0 ≤ d := h d (List.mem_cons_self d t)
    have ht : 0 ≤ horner B t := ih fun x hx => h x (List.mem_cons_of_mem d hx)
    positivity

theorem horner_lt (B : ℤ) (l : List ℤ) (hB : 1 ≤ B) (h : ∀ d ∈ l, 0 ≤ d ∧ d < B) :
    horner B l < B ^ l.length := by
  induction l with
  | nil => simp [horner]
  | cons d t ih =>
    rw [horner_cons, List.length_cons]
    have hd := h d (List.mem_cons_self d t)
    have ht : horner B t < B ^ t.length := ih fun x hx => h x (List.mem_cons_of_mem d hx)
    have hp : (0 : ℤ) < B ^ t.length := by positivity
    calc d * B ^ t.length + horner B t < d * B ^ t.length + B ^ t.length := by omega
    _ = (d + 1) * B ^ t.length := by ring
    _ ≤ B * B ^ t.length := by
        have : d + 1 ≤ B := hd.2
        exact mul_le_mul_of_nonneg_right this hp.le
    _ = B ^ (t.length + 1) := by ring

/-- Dividing out a multiple of a higher power of the base leaves a digit
extraction unchanged. -/
theorem ediv_pow_emod_eq (B d x : ℤ) (e m : ℕ) (hB : 1 ≤ B) (he : e < m) :
    (d * B ^ m + x) / B ^ e % B = x / B ^ e % B := by
  have hBp : (0 : ℤ) < B := by omega
  have h1 : d * B ^ m = d * B ^ (m - e) * B ^ e := by
    rw [mul_assoc, ← pow_add]
    congr 2
    omega
  rw [h1, add_comm, Int.add_mul_ediv_right _ _ (by positivity)]
  obtain ⟨c, hc⟩ : ∃ c, m - e = c + 1 := ⟨m - e - 1, by omega⟩
  have h2 : d * B ^ (m - e) = d * B ^ c * B := by rw [hc, pow_succ, mul_assoc]
  rw [h2, Int.add_mul_emod_self]

theorem horner_getElem (B : ℤ) (l : List ℤ) (hB : 1 ≤ B)
    (h : ∀ d ∈ l, 0 ≤ d ∧ d < B) (j : ℕ) (hj : j < l.length) :
    horner B l / B ^ (l.length - 1 - j) % B = l[j] := by
  induction l generalizing j with
  | nil => simp at hj
  | cons d t ih =>
    rw [horner_cons]
    have hd := h d (List.mem_cons_self d t)
    have hval : ∀ x ∈ t, 0 ≤ x ∧ x < B := fun x hx => h x (List.mem_cons_of_mem d hx)
    cases j with
    | zero =>
      have hh0 : 0 ≤ horner B t := horner_nonneg B t (by omega) fun x hx => (hval x hx).1
      have hht : horner B t < B ^ t.length := horner_lt B t hB hval
      have hlen : (d :: t).length - 1 - 0 = t.length := by simp
      rw [hlen]
      have hdiv : (d * B ^ t.length + horner B t) / B ^ t.length
          = horner B t / B ^ t.length + d := by
        rw [add_comm, Int.add_mul_ediv_right _ _ (by positivity)]
      rw [hdiv, Int.ediv_eq_zero_of_lt hh0 hht, zero_add, Int.emod_eq_of_lt hd.1 hd.2]
      simp
    | succ j =>
      have hj' : j < t.length := by simpa using hj
      have hlen : (d :: t).length - 1 - (j + 1) = t.length - 1 - j := by
        simp only [List.length_cons]
        omega
      have he : t.length - 1 - j < t.length := by omega
      rw [hlen, ediv_pow_emod_eq B d (horner B t) _ _ hB he, ih hval j hj']
      simp

/-- Equal valid digit strings of equal length with equal Horner value are equal. -/
theorem horner_inj (B : ℤ) (hB : 1 ≤ B) (l1 l2 : List ℤ)
    (h1 : ∀ d ∈ l1, 0 ≤ d ∧ d < B) (h2 : ∀ d ∈ l2, 0 ≤ d ∧ d < B)
    (hlen : l1.length = l2.length) (hh : horner B l1 = horner B l2) : l1 = l2 := by
  apply List.ext_getElem hlen
  intro j hj1 hj2
  rw [← horner_getElem B l1 hB h1 j hj1, ← horner_getElem B l2 hB h2 j hj2, hh, hlen]

/-- The inverse of `horner`: split `r` into `k` base-`B` digits,
most significant first. -/
def unhorner (B : ℤ) (k : ℕ) (r : ℤ) : List ℤ :=
  (List.range k).map (fun i => r / B ^ (k - 1 - i) % B)

theorem unhorner_length (B : ℤ) (k : ℕ) (r : ℤ) : (unhorner B k r).length = k := by
  simp [unhorner]

/-- A digit below position `m` only depends on the value modulo `B ^ m`. -/
theorem ediv_pow_emod_emod_pow (B y : ℤ) (e m : ℕ) (hB : 1 ≤ B) (he : e < m) :
    y / B ^ e % B = (y % B ^ m) / B ^ e % B := by
  conv_lhs => rw [show y = B ^ m * (y / B ^ m) + y % B ^ m from
    (Int.ediv_add_emod y (B ^ m)).symm]
  rw [mul_comm (B ^ m) (y / B ^ m), ediv_pow_emod_eq B _ _ _ _ hB he]

theorem unhorner_succ (B : ℤ) (k : ℕ) (r : ℤ) (hB : 1 ≤ B) :
    unhorner B (k + 1) r = (r / B ^ k % B) :: unhorner B k (r % B ^ k) := by
  rw [unhorner, unhorner, List.range_succ_eq_map, List.map_cons, List.map_map]
  congr 1
  apply List.map_congr_left
  intro i hi
  rw [List.mem_range] at hi
  simp only [Function.comp_apply, Nat.succ_eq_add_one]
  have hlen : k + 1 - 1 - (i + 1) = k - 1 - i := by omega
  rw [hlen]
  exact ediv_pow_emod_emod_pow B r (k - 1 - i) k hB (by omega)

theorem unhorner_spec (B : ℤ) (hB : 1 ≤ B) (k : ℕ) (r : ℤ)
    (hr0 : 0 ≤ r) (hrk : r < B ^ k) :
    (∀ d ∈ unhorner B k r, 0 ≤ d ∧ d < B) ∧ horner B (unhorner B k r) = r := by
  induction k generalizing r with
  | zero =>
    have h1 : r < 1 := by simpa using hrk
    have : r = 0 := by omega
    subst this
    exact ⟨by simp [unhorner], by simp [unhorner, horner]⟩
  | succ k ih =>
    have hBp : (0 : ℤ) < B := by omega
    have hpow : (0 : ℤ) < B ^ k := by positivity
    have hd0 : 0 ≤ r / B ^ k := Int.ediv_nonneg hr0 hpow.le
    have hdB : r / B ^ k < B := by
      rw [Int.ediv_lt_iff_lt_mul hpow]
      calc r < B ^ (k + 1) := hrk
      _ = B * B ^ k := by ring
    have hm0 : 0 ≤ r % B ^ k := Int.emod_nonneg r hpow.ne'
    have hmk : r % B ^ k < B ^ k := Int.emod_lt_of_pos r hpow
    obtain ⟨hvalid, hval⟩ := ih (r % B ^ k) hm0 hmk
    rw [unhorner_succ B k r hB]
    have hdmod : r / B ^ k % B = r / B ^ k := Int.emod_eq_of_lt hd0 hdB
    constructor
    · intro d hd
      rcases List.mem_cons.mp hd with rfl | hd
      · rw [hdmod]
        exact ⟨hd0, hdB⟩
      · exact hvalid d hd
    · rw [horner_cons, hval, unhorner_length, hdmod]
      have := Int.ediv_add_emod r (B ^ k)
      nlinarith [this]

/-! ## Bridging the JS bitwise operations inside `assembleBytes` and
`bitsToBigInt` to arithmetic -/

theorem shiftLeft_eight_eq (a : ℤ) (h : 0 ≤ a) : a <<< (8 : ℤ) = 256 * a := by
  obtain ⟨m, rfl⟩ := Int.eq_ofNat_of_zero_le h
  have h1 : ((m : ℤ)) <<< ((8 : ℕ) : ℤ) = ((m <<< 8 : ℕ) : ℤ) := Int.shiftLeft_coe_nat m 8
  rw [show ((8 : ℕ) : ℤ) = (8 : ℤ) from rfl] at h1
  rw [h1, Nat.shiftLeft_eq]
  push_cast
  ring

theorem shiftLeft_one_eq (a : ℤ) (h : 0 ≤ a) : a <<< (1 : ℤ) = 2 * a := by
  obtain ⟨m, rfl⟩ := Int.eq_ofNat_of_zero_le h
  have h1 : ((m : ℤ)) <<< ((1 : ℕ) : ℤ) = ((m <<< 1 : ℕ) : ℤ) := Int.shiftLeft_coe_nat m 1
  rw [show ((1 : ℕ) : ℤ) = (1 : ℤ) from rfl] at h1
  rw [h1, Nat.shiftLeft_eq]
  push_cast
  ring

theorem assembleBytes_eq_horner (array : List ℕ) :
    assembleBytes array = horner 256 (array.map (fun (b : ℕ) => (b : ℤ))) := by
  rw [assembleBytes, horner, List.foldl_map]
  have key : ∀ (l : List ℕ) (acc : ℤ), 0 ≤ acc →
      l.foldl (fun (result : ℤ) (b : ℕ) => (result <<< (8 : ℤ)) + (b : ℤ)) acc
        = l.foldl (fun (acc : ℤ) (b : ℕ) => 256 * acc + (b : ℤ)) acc := by
    intro l
    induction l with
    | nil => intro acc _; rfl
    | cons b t iht =>
      intro acc hacc
      rw [List.foldl_cons, List.foldl_cons]
      rw [shiftLeft_eight_eq acc hacc]
      exact iht _ (by positivity)
  exact key array 0 le_rfl

theorem nat_lor_one (a : ℕ) : 2 * a ||| 1 = 2 * a + 1 := by
  apply Nat.eq_of_testBit_eq
  intro j
  cases j with
  | zero =>
    have e1 : 2 * a % 2 = 0 := by omega
    have e2 : (2 * a + 1) % 2 = 1 := by omega
    simp [Nat.testBit_or, Nat.testBit_zero, e1, e2]
  | succ j =>
    rw [Nat.testBit_or]
    simp only [Nat.testBit_add_one]
    have h1 : 2 * a / 2 = a := by omega
    have h2 : (2 * a + 1) / 2 = a := by omega
    have h3 : (1 : ℕ) / 2 = 0 := by omega
    rw [h1, h2, h3, Nat.zero_testBit, Bool.or_false]

theorem lor_step (acc bit : ℤ) (h : 0 ≤ acc) (hb : bit = 0 ∨ bit = 1) :
    Int.lor (acc <<< (1 : ℤ)) bit = 2 * acc + bit := by
  obtain ⟨a, rfl⟩ := Int.eq_ofNat_of_zero_le h
  rw [shiftLeft_one_eq _ h]
  have hx : (2 * (a : ℤ)) = ((2 * a : ℕ) : ℤ) := by push_cast; ring
  rw [hx]
  rcases hb with rfl | rfl
  · have h4 : Int.lor ((2 * a : ℕ) : ℤ) (0 : ℤ) = ((2 * a ||| 0 : ℕ) : ℤ) := rfl
    rw [h4]
    simp
  · have h4 : Int.lor ((2 * a : ℕ) : ℤ) (1 : ℤ) = ((2 * a ||| 1 : ℕ) : ℤ) := rfl
    rw [h4, nat_lor_one]
    push_cast
    ring

theorem bitsToBigInt_eq_horner (bits : List ℤ) (h : ∀ b ∈ bits, b = 0 ∨ b = 1) :
    bitsToBigInt bits = horner 2 bits := by
  rw [bitsToBigInt, horner]
  have key : ∀ (l : List ℤ), (∀ b ∈ l, b = 0 ∨ b = 1) → ∀ acc : ℤ, 0 ≤ acc →
      l.foldl (fun acc bit => Int.lor (acc <<< (1 : ℤ)) bit) acc
        = l.foldl (fun acc d => 2 * acc + d) acc := by
    intro l
    induction l with
    | nil => intro _ acc _; rfl
    | cons b t iht =>
      intro hl acc hacc
      simp only [List.foldl_cons]
      have hb := hl b (List.mem_cons_self b t)
      rw [lor_step acc b hacc hb]
      exact iht (fun x hx => hl x (List.mem_cons_of_mem b hx)) _ (by rcases hb with rfl | rfl <;> omega)
  exact key bits h 0 le_rfl

/-! ## Normal forms of the per-dimension pipeline -/

theorem noiseFromByte_cases (b : ℕ) :
    noiseFromByte b = -1 ∨ noiseFromByte b = 0 ∨ noiseFromByte b = 1 := by
  rw [noiseFromByte]
  omega

theorem publicValue_eq_emod (g s : ℤ) (hg : 0 ≤ g) (hs : 0 ≤ s) :
    publicValue g s = (g * s) % Q :=
  Int.tmod_eq_emod (mul_nonneg hg hs) Q_pos.le

theorem sharedValue_eq_emod (p s : ℤ) (hp : 0 ≤ p) (hs : 0 ≤ s) :
    sharedValue p s = (p * s) % Q :=
  Int.tmod_eq_emod (mul_nonneg hp hs) Q_pos.le

theorem addNoise_eq_emod (value : ℤ) (byte : ℕ) (h : 0 ≤ value) :
    addNoise value byte = (value + noiseFromByte byte) % Q := by
  have hδ := noiseFromByte_cases byte
  have hnn : 0 ≤ value + noiseFromByte byte + Q := by
    have := Q_pos
    rcases hδ with h1 | h1 | h1 <;> rw [h1] <;> omega
  rw [addNoise, Int.tmod_eq_emod hnn Q_pos.le]
  conv_rhs => rw [← Int.add_mul_emod_self_left (value + noiseFromByte byte) Q 1]
  rw [mul_one]

theorem addNoise_range (value : ℤ) (byte : ℕ) (h : 0 ≤ value) :
    0 ≤ addNoise value byte ∧ addNoise value byte < Q := by
  rw [addNoise_eq_emod value byte h]
  exact ⟨Int.emod_nonneg _ Q_pos.ne', Int.emod_lt_of_pos _ Q_pos⟩

theorem publicValue_range (g s : ℤ) (hg : 0 ≤ g) (hs : 0 ≤ s) :
    0 ≤ publicValue g s ∧ publicValue g s < Q := by
  rw [publicValue_eq_emod g s hg hs]
  exact ⟨Int.emod_nonneg _ Q_pos.ne', Int.emod_lt_of_pos _ Q_pos⟩

theorem sharedValue_range (p s : ℤ) (hp : 0 ≤ p) (hs : 0 ≤ s) :
    0 ≤ sharedValue p s ∧ sharedValue p s < Q := by
  rw [sharedValue_eq_emod p s hp hs]
  exact ⟨Int.emod_nonneg _ Q_pos.ne', Int.emod_lt_of_pos _ Q_pos⟩

/-- The cancellation `((x % Q) * a + y) % Q = (x * a + y) % Q`. -/
theorem emod_mul_add_cancel (x a y : ℤ) : ((x % Q) * a + y) % Q = (x * a + y) % Q := by
  conv_lhs => rw [Int.add_emod]
  conv_rhs => rw [Int.add_emod]
  rw [Int.mul_emod (x % Q) a, Int.emod_emod_of_dvd x (dvd_refl Q), ← Int.mul_emod]

/-- The cancellation `((x % Q) * s) % Q = (x * s) % Q`. -/
theorem emod_mul_emod (x s : ℤ) : (x % Q) * s % Q = x * s % Q := by
  rw [Int.mul_emod (x % Q) s, Int.emod_emod_of_dvd x (dvd_refl Q), ← Int.mul_emod]

/-- One side's shared value, written as the noiseless product `g*a*b mod Q`
plus that side's received noise times its own secret, mod `Q`. -/
theorem shared_normal_form (g s t : ℤ) (byte : ℕ) (hg : 0 ≤ g) (hs : 0 ≤ s) (ht : 0 ≤ t) :
    sharedValue (addNoise (publicValue g t) byte) s
      = ((g * s * t) % Q + noiseFromByte byte * s) % Q := by
  have hpub := publicValue_range g t hg ht
  have hnp := addNoise_range (publicValue g t) byte hpub.1
  rw [sharedValue_eq_emod _ s hnp.1 hs, addNoise_eq_emod _ byte hpub.1,
    publicValue_eq_emod g t hg ht]
  rw [emod_mul_emod, add_mul, emod_mul_add_cancel, Int.emod_add_emod]
  congr 1
  ring

set_option maxRecDepth 8000 in
/-- If the noiseless product `g*a*b mod Q` keeps a margin of `SECRET_MAX` from
`0`, `2^255` and `Q`, both parties extract the same bit in that dimension. -/
theorem keyBit_eq_of_margin (g a b : ℤ) (na nb : ℕ)
    (hg : 0 ≤ g) (ha : 0 ≤ a) (ha2 : a < SECRET_MAX) (hb : 0 ≤ b) (hb2 : b < SECRET_MAX)
    (hmLo : SECRET_MAX ≤ g * a * b % Q) (hmHi : g * a * b % Q ≤ Q - SECRET_MAX)
    (hmMid : g * a * b % Q ≤ 2 ^ 255 - SECRET_MAX ∨ 2 ^ 255 + SECRET_MAX ≤ g * a * b % Q) :
    extractBit (sharedValue (addNoise (publicValue g b) nb) a)
      = extractBit (sharedValue (addNoise (publicValue g a) na) b) := by
  have hA := shared_normal_form g a b nb hg ha hb
  have hB' := shared_normal_form g b a na hg hb ha
  have hcomm : g * b * a = g * a * b := by ring
  rw [hcomm] at hB'
  have hS := SECRET_MAX_eq
  have hQ2 := Q_eq
  have hm0 : 0 ≤ g * a * b % Q := Int.emod_nonneg _ Q_pos.ne'
  have hδa : -SECRET_MAX < noiseFromByte nb * a ∧ noiseFromByte nb * a < SECRET_MAX := by
    rcases noiseFromByte_cases nb with h | h | h <;> rw [h] <;> constructor <;> omega
  have hδb : -SECRET_MAX < noiseFromByte na * b ∧ noiseFromByte na * b < SECRET_MAX := by
    rcases noiseFromByte_cases na with h | h | h <;> rw [h] <;> constructor <;> omega
  have h1 : (g * a * b % Q + noiseFromByte nb * a) % Q
      = g * a * b % Q + noiseFromByte nb * a := by
    apply Int.emod_eq_of_lt <;> omega
  have h2 : (g * a * b % Q + noiseFromByte na * b) % Q
      = g * a * b % Q + noiseFromByte na * b := by
    apply Int.emod_eq_of_lt <;> omega
  rw [hA, hB', h1, h2]
  rw [extractBit_eq_ite _ (by omega) (by omega), extractBit_eq_ite _ (by omega) (by omega)]
  rcases hmMid with hmid | hmid
  · rw [if_neg (by omega), if_neg (by omega)]
  · rw [if_pos (by omega), if_pos (by omega)]

/-! ## Index access through the list pipeline -/

theorem getD_zipWith {α β γ : Type} (f : α → β → γ) (l1 : List α) (l2 : List β)
    (i : ℕ) (d1 : α) (d2 : β) (d3 : γ) (h1 : i < l1.length) (h2 : i < l2.length) :
    (List.zipWith f l1 l2).getD i d3 = f (l1.getD i d1) (l2.getD i d2) := by
  have hz : i < (List.zipWith f l1 l2).length := by rw [List.length_zipWith]; omega
  rw [List.getD_eq_getElem _ _ hz, List.getD_eq_getElem _ _ h1, List.getD_eq_getElem _ _ h2,
    List.getElem_zipWith]

theorem getD_map {α β : Type} (f : α → β) (l : List α) (i : ℕ) (d1 : α) (d2 : β)
    (h : i < l.length) :
    (l.map f).getD i d2 = f (l.getD i d1) := by
  rw [List.getD_eq_getElem _ _ (by simpa using h), List.getD_eq_getElem _ _ h, List.getElem_map]

theorem forall_mem_zipWith {α β γ : Type} (f : α → β → γ) (P : γ → Prop) :
    ∀ (l1 : List α) (l2 : List β), (∀ x ∈ l1, ∀ y ∈ l2, P (f x y)) →
      ∀ z ∈ List.zipWith f l1 l2, P z := by
  intro l1
  induction l1 with
  | nil => intro l2 _ z hz; simp at hz
  | cons x t ih =>
    intro l2 h z hz
    cases l2 with
    | nil => simp at hz
    | cons y t2 =>
      rw [List.zipWith_cons_cons] at hz
      rcases List.mem_cons.mp hz with rfl | hz2
      · exact h x (by simp) y (by simp)
      · exact ih t2 (fun u hu v hv => h u (by simp [hu]) v (by simp [hv])) z hz2

theorem keyAlice_length (G as bs : List ℤ) (nb : List ℕ) :
    (keyAlice G as bs nb).length = min (min (min G.length bs.length) nb.length) as.length := by
  simp [keyAlice, extractKey, sharedAlice, computeShared, bobPublicsNoisy, addNoiseAll,
    computePublics, List.length_zipWith]

theorem keyBob_length (G as bs : List ℤ) (na : List ℕ) :
    (keyBob G as bs na).length = min (min (min G.length as.length) na.length) bs.length := by
  simp [keyBob, extractKey, sharedBob, computeShared, alicePublicsNoisy, addNoiseAll,
    computePublics, List.length_zipWith]

theorem keyAlice_getD (G as bs : List ℤ) (nb : List ℕ) (i : ℕ)
    (hG : i < G.length) (ha : i < as.length) (hb : i < bs.length) (hn : i < nb.length) :
    (keyAlice G as bs nb).getD i 0
      = extractBit (sharedValue (addNoise (publicValue (G.getD i 0) (bs.getD i 0))
          (nb.getD i 0)) (as.getD i 0)) := by
  have hl1 : i < (List.zipWith publicValue G bs).length := by rw [List.length_zipWith]; omega
  have hl2 : i < (List.zipWith addNoise (List.zipWith publicValue G bs) nb).length := by
    rw [List.length_zipWith, List.length_zipWith]; omega
  have hl3 : i < (List.zipWith sharedValue
      (List.zipWith addNoise (List.zipWith publicValue G bs) nb) as).length := by
    rw [List.length_zipWith, List.length_zipWith, List.length_zipWith]; omega
  rw [keyAlice, extractKey, sharedAlice, computeShared, bobPublicsNoisy, addNoiseAll,
    computePublics]
  rw [getD_map extractBit _ i 0 0 hl3, getD_zipWith sharedValue _ _ i 0 0 0 hl2 ha,
    getD_zipWith addNoise _ _ i 0 0 0 hl1 hn, getD_zipWith publicValue _ _ i 0 0 0 hG hb]

theorem keyBob_getD (G as bs : List ℤ) (na : List ℕ) (i : ℕ)
    (hG : i < G.length) (ha : i < as.length) (hb : i < bs.length) (hn : i < na.length) :
    (keyBob G as bs na).getD i 0
      = extractBit (sharedValue (addNoise (publicValue (G.getD i 0) (as.getD i 0))
          (na.getD i 0)) (bs.getD i 0)) := by
  have hl1 : i < (List.zipWith publicValue G as).length := by rw [List.length_zipWith]; omega
  have hl2 : i < (List.zipWith addNoise (List.zipWith publicValue G as) na).length := by
    rw [List.length_zipWith, List.length_zipWith]; omega
  have hl3 : i < (List.zipWith sharedValue
      (List.zipWith addNoise (List.zipWith publicValue G as) na) bs).length := by
    rw [List.length_zipWith, List.length_zipWith, List.length_zipWith]; omega
  rw [keyBob, extractKey, sharedBob, computeShared, alicePublicsNoisy, addNoiseAll,
    computePublics]
  rw [getD_map extractBit _ i 0 0 hl3, getD_zipWith sharedValue _ _ i 0 0 0 hl2 hb,
    getD_zipWith addNoise _ _ i 0 0 0 hl1 hn, getD_zipWith publicValue _ _ i 0 0 0 hG ha]

/-! ## Claim C2: elementwise public and shared value derivation -/

/-- C2: for every dimension `i`, the public value is `basis[i] * secret[i] mod Q`
and the shared value is `otherNoisy[i] * secret[i] mod Q`; each entry is a pure
function of only the index-`i` inputs. -/
theorem C2_elementwise (basis secrets noisyOthers : List ℤ) (i : ℕ)
    (h1 : i < basis.length) (h2 : i < secrets.length) (h3 : i < noisyOthers.length) :
    (computePublics basis secrets).getD i 0 = (basis.getD i 0 * secrets.getD i 0).tmod Q ∧
    (computeShared noisyOthers secrets).getD i 0
      = (noisyOthers.getD i 0 * secrets.getD i 0).tmod Q := by
  constructor
  · rw [computePublics, getD_zipWith publicValue _ _ i 0 0 0 h1 h2]
    rfl
  · rw [computeShared, getD_zipWith sharedValue _ _ i 0 0 0 h3 h2]
    rfl

theorem C2_elementwise_witness :
    (computePublics [2, 3] [4, 5]).getD 1 0 = (([2, 3] : List ℤ).getD 1 0 * ([4, 5] : List ℤ).getD 1 0).tmod Q ∧
    (computeShared [6, 7] [4, 5]).getD 1 0 = (([6, 7] : List ℤ).getD 1 0 * ([4, 5] : List ℤ).getD 1 0).tmod Q :=
  C2_elementwise [2, 3] [4, 5] [6, 7] 1 (by simp) (by simp) (by simp)

/-! ## Claim C3: the perturbation operation -/

/-- C3: for every value in `[0, Q)` and every noise byte, `addNoise` returns
exactly `(value + noise + Q) mod Q = (value + noise) mod Q` where the noise is
in `{-1, 0, +1}`, and the result is non-negative and strictly below `Q`. -/
theorem C3_addNoise_correct (value : ℤ) (byte : ℕ) (h0 : 0 ≤ value) (_hQ : value < Q) :
    (noiseFromByte byte = -1 ∨ noiseFromByte byte = 0 ∨ noiseFromByte byte = 1) ∧
    addNoise value byte = (value + noiseFromByte byte + Q) % Q ∧
    addNoise value byte = (value + noiseFromByte byte) % Q ∧
    0 ≤ addNoise value byte ∧ addNoise value byte < Q := by
  refine ⟨noiseFromByte_cases byte, ?_, addNoise_eq_emod value byte h0,
    (addNoise_range value byte h0).1, (addNoise_range value byte h0).2⟩
  rw [addNoise]
  apply Int.tmod_eq_emod ?_ Q_pos.le
  have := Q_pos
  rcases noiseFromByte_cases byte with h | h | h <;> rw [h] <;> omega

theorem C3_addNoise_correct_witness :
    (noiseFromByte 7 = -1 ∨ noiseFromByte 7 = 0 ∨ noiseFromByte 7 = 1) ∧
    addNoise 5 7 = (5 + noiseFromByte 7 + Q) % Q ∧
    addNoise 5 7 = (5 + noiseFromByte 7) % Q ∧
    0 ≤ addNoise 5 7 ∧ addNoise 5 7 < Q :=
  C3_addNoise_correct 5 7 (by norm_num) (by rw [Q_eq]; norm_num)

/-! ## Claim C4: the extracted bit is the fixed-width MSB -/

set_option maxRecDepth 8000 in
/-- C4: `Q` has bit length 256, and for every `v ∈ [0, Q)` the bit computed by
`(v >> 255) & 1` equals `v / 2^255 mod 2` and is `1` exactly when `v ≥ 2^255`. -/
theorem C4_extractBit_msb (v : ℤ) (h0 : 0 ≤ v) (hQv : v < Q) :
    bitLengthJs Q.toNat = 256 ∧
    extractBit v = v / 2 ^ 255 % 2 ∧
    (extractBit v = 1 ↔ 2 ^ 255 ≤ v) ∧
    (extractBit v = 0 ↔ v < 2 ^ 255) := by
  have hqt : Q.toNat = 2 ^ 256 - 189 := by
    rw [Q_eq]
    norm_num
    rfl
  have hne : Q.toNat ≠ 0 := by rw [hqt]; norm_num
  have hbl : bitLengthJs Q.toNat = 256 := by
    rw [bitLengthJs, if_neg hne]
    have hlo : 255 ≤ Q.toNat.log2 := (Nat.le_log2 hne).mpr (by rw [hqt]; norm_num)
    have hhi : Q.toNat.log2 < 256 := (Nat.log2_lt hne).mpr (by rw [hqt]; norm_num)
    omega
  have hie := extractBit_eq_ite v h0 hQv
  refine ⟨hbl, extractBit_eq_div v h0, ?_, ?_⟩ <;> rw [hie] <;> split_ifs with h <;>
    constructor <;> intro h2 <;> omega

set_option maxRecDepth 8000 in
theorem C4_extractBit_msb_witness :
    bitLengthJs Q.toNat = 256 ∧
    extractBit (2 ^ 255) = (2 ^ 255 : ℤ) / 2 ^ 255 % 2 ∧
    (extractBit (2 ^ 255) = 1 ↔ (2 ^ 255 : ℤ) ≤ 2 ^ 255) ∧
    (extractBit (2 ^ 255) = 0 ↔ (2 ^ 255 : ℤ) < 2 ^ 255) :=
  C4_extractBit_msb (2 ^ 255) (by positivity) (by rw [Q_eq]; norm_num)

/-! ## Claim C6: the noise distribution -/

/-- C6 counterexample: the three outcomes do not have the same number of byte
preimages among the 256 possible bytes: `-1` is produced by 86 bytes while `0`
is produced by 85, so the map is not exactly uniform. -/
theorem C6_counterexample :
    ((Finset.range 256).filter (fun b => noiseFromByte b = -1)).card = 86 ∧
    ((Finset.range 256).filter (fun b => noiseFromByte b = 0)).card = 85 ∧
    ¬ ((Finset.range 256).filter (fun b => noiseFromByte b = -1)).card
        = ((Finset.range 256).filter (fun b => noiseFromByte b = 0)).card := by
  refine ⟨by decide, by decide, by decide⟩

/-- C6 amended: the noise is always one of `{-1, 0, +1}`, and the byte-to-noise
map is near-uniform: out of the 256 byte values, 86 map to `-1` and 85 each map
to `0` and `+1` (equal up to one, not exactly equal). -/
theorem C6_amended_noise (b : ℕ) :
    (noiseFromByte b = -1 ∨ noiseFromByte b = 0 ∨ noiseFromByte b = 1) ∧
    ((Finset.range 256).filter (fun x => noiseFromByte x = -1)).card = 86 ∧
    ((Finset.range 256).filter (fun x => noiseFromByte x = 0)).card = 85 ∧
    ((Finset.range 256).filter (fun x => noiseFromByte x = 1)).card = 85 :=
  ⟨noiseFromByte_cases b, by decide, by decide, by decide⟩

/-! ## Claim C9: determinism and per-dimension noninterference -/

/-- C9: a dimension's key bit (for both parties) depends only on that
dimension's basis entry, both secrets and both noise draws: two runs that agree
on those five inputs at index `i` produce the same bit `i`, whatever the other
dimensions hold. -/
theorem C9_noninterference (G G2 as as2 bs bs2 : List ℤ) (na na2 nb nb2 : List ℕ) (i : ℕ)
    (hGl : i < G.length) (hG2l : i < G2.length)
    (hal : i < as.length) (ha2l : i < as2.length)
    (hbl : i < bs.length) (hb2l : i < bs2.length)
    (hnal : i < na.length) (hna2l : i < na2.length)
    (hnbl : i < nb.length) (hnb2l : i < nb2.length)
    (hG : G.getD i 0 = G2.getD i 0) (has : as.getD i 0 = as2.getD i 0)
    (hbs : bs.getD i 0 = bs2.getD i 0) (hna : na.getD i 0 = na2.getD i 0)
    (hnb : nb.getD i 0 = nb2.getD i 0) :
    (keyAlice G as bs nb).getD i 0 = (keyAlice G2 as2 bs2 nb2).getD i 0 ∧
    (keyBob G as bs na).getD i 0 = (keyBob G2 as2 bs2 na2).getD i 0 := by
  rw [keyAlice_getD G as bs nb i hGl hal hbl hnbl,
    keyAlice_getD G2 as2 bs2 nb2 i hG2l ha2l hb2l hnb2l,
    keyBob_getD G as bs na i hGl hal hbl hnal,
    keyBob_getD G2 as2 bs2 na2 i hG2l ha2l hb2l hna2l,
    hG, has, hbs, hna, hnb]
  exact ⟨rfl, rfl⟩

theorem C9_noninterference_witness :
    (keyAlice [3, 9] [1, 5] [2, 7] [1, 0]).getD 0 0
      = (keyAlice [3, 100] [1, 6] [2, 8] [1, 5]).getD 0 0 ∧
    (keyBob [3, 9] [1, 5] [2, 7] [0, 1]).getD 0 0
      = (keyBob [3, 100] [1, 6] [2, 8] [0, 2]).getD 0 0 :=
  C9_noninterference [3, 9] [3, 100] [1, 5] [1, 6] [2, 7] [2, 8] [0, 1] [0, 2] [1, 0] [1, 5] 0
    (by simp) (by simp) (by simp) (by simp) (by simp) (by simp) (by simp) (by simp)
    (by simp) (by simp) rfl rfl rfl rfl rfl

/-! ## Claim C10: the canonical residue range invariant -/

set_option maxRecDepth 8000 in
/-- C10: with non-negative draws, every public, noisy-public and shared value
of both parties lies in `[0, Q)`; perturbing `0` with noise `-1` (byte `0`)
wraps to `Q - 1`, whose most significant bit differs from that of the
noiseless value `0`. -/
theorem C10_range_invariant (G as bs : List ℤ) (na nb : List ℕ)
    (hG : ∀ g ∈ G, 0 ≤ g) (has : ∀ a ∈ as, 0 ≤ a) (hbs : ∀ b ∈ bs, 0 ≤ b) :
    (∀ x ∈ computePublics G as, 0 ≤ x ∧ x < Q) ∧
    (∀ x ∈ computePublics G bs, 0 ≤ x ∧ x < Q) ∧
    (∀ x ∈ alicePublicsNoisy G as na, 0 ≤ x ∧ x < Q) ∧
    (∀ x ∈ bobPublicsNoisy G bs nb, 0 ≤ x ∧ x < Q) ∧
    (∀ x ∈ sharedAlice G as bs nb, 0 ≤ x ∧ x < Q) ∧
    (∀ x ∈ sharedBob G as bs na, 0 ≤ x ∧ x < Q) ∧
    addNoise 0 0 = Q - 1 ∧
    extractBit 0 = 0 ∧ extractBit (addNoise 0 0) = 1 := by
  have hpubA : ∀ x ∈ computePublics G as, 0 ≤ x ∧ x < Q :=
    forall_mem_zipWith publicValue _ G as
      (fun g hg a ha => publicValue_range g a (hG g hg) (has a ha))
  have hpubB : ∀ x ∈ computePublics G bs, 0 ≤ x ∧ x < Q :=
    forall_mem_zipWith publicValue _ G bs
      (fun g hg b hb => publicValue_range g b (hG g hg) (hbs b hb))
  have hnoisyA : ∀ x ∈ alicePublicsNoisy G as na, 0 ≤ x ∧ x < Q :=
    forall_mem_zipWith addNoise _ (computePublics G as) na
      (fun p hp byte _ => addNoise_range p byte (hpubA p hp).1)
  have hnoisyB : ∀ x ∈ bobPublicsNoisy G bs nb, 0 ≤ x ∧ x < Q :=
    forall_mem_zipWith addNoise _ (computePublics G bs) nb
      (fun p hp byte _ => addNoise_range p byte (hpubB p hp).1)
  have hsharedA : ∀ x ∈ sharedAlice G as bs nb, 0 ≤ x ∧ x < Q :=
    forall_mem_zipWith sharedValue _ (bobPublicsNoisy G bs nb) as
      (fun p hp a ha => sharedValue_range p a (hnoisyB p hp).1 (has a ha))
  have hsharedB : ∀ x ∈ sharedBob G as bs na, 0 ≤ x ∧ x < Q :=
    forall_mem_zipWith sharedValue _ (alicePublicsNoisy G as na) bs
      (fun p hp b hb => sharedValue_range p b (hnoisyA p hp).1 (hbs b hb))
  have hwrap : addNoise 0 0 = Q - 1 := by
    rw [addNoise_eq_emod 0 0 le_rfl]
    have hn : noiseFromByte 0 = -1 := by norm_num [noiseFromByte]
    rw [hn, Q_eq]
    omega
  refine ⟨hpubA, hpubB, hnoisyA, hnoisyB, hsharedA, hsharedB, hwrap, ?_, ?_⟩
  · rw [extractBit_eq_div 0 le_rfl]
    norm_num
  · rw [hwrap, extractBit_eq_ite (Q - 1) (by rw [Q_eq]; norm_num) (by omega),
      if_pos (by rw [Q_eq]; norm_num)]

theorem C10_range_invariant_witness :
    (∀ x ∈ computePublics [5] [3], 0 ≤ x ∧ x < Q) ∧
    (∀ x ∈ computePublics [5] [4], 0 ≤ x ∧ x < Q) ∧
    (∀ x ∈ alicePublicsNoisy [5] [3] [2], 0 ≤ x ∧ x < Q) ∧
    (∀ x ∈ bobPublicsNoisy [5] [4] [0], 0 ≤ x ∧ x < Q) ∧
    (∀ x ∈ sharedAlice [5] [3] [4] [0], 0 ≤ x ∧ x < Q) ∧
    (∀ x ∈ sharedBob [5] [3] [4] [2], 0 ≤ x ∧ x < Q) ∧
    addNoise 0 0 = Q - 1 ∧
    extractBit 0 = 0 ∧ extractBit (addNoise 0 0) = 1 :=
  C10_range_invariant [5] [3] [4] [2] [0]
    (by intro g hg; simp at hg; omega)
    (by intro a ha; simp at ha; omega)
    (by intro b hb; simp at hb; omega)

/-! ## Claim C1: key agreement -/

set_option maxRecDepth 8000 in
/-- C1 amended: the two keys agree on every dimension whose noiseless product
`G[i]*a[i]*b[i] mod Q` keeps a margin of `SECRET_MAX` from `0`, from `2^255`
and from `Q`; in particular whole keys agree whenever every dimension
satisfies that margin.  (Without the margin the bits can differ — see the
counterexample.) -/
theorem C1_amended_keys_agree (G as bs : List ℤ) (na nb : List ℕ) (n : ℕ)
    (hGl : G.length = n) (hal : as.length = n) (hbl : bs.length = n)
    (hnal : na.length = n) (hnbl : nb.length = n)
    (hG : ∀ g ∈ G, 0 ≤ g)
    (has : ∀ a ∈ as, 0 ≤ a ∧ a < SECRET_MAX)
    (hbs : ∀ b ∈ bs, 0 ≤ b ∧ b < SECRET_MAX)
    (hmargin : ∀ i, i < n →
      SECRET_MAX ≤ G.getD i 0 * as.getD i 0 * bs.getD i 0 % Q ∧
      G.getD i 0 * as.getD i 0 * bs.getD i 0 % Q ≤ Q - SECRET_MAX ∧
      (G.getD i 0 * as.getD i 0 * bs.getD i 0 % Q ≤ 2 ^ 255 - SECRET_MAX ∨
        2 ^ 255 + SECRET_MAX ≤ G.getD i 0 * as.getD i 0 * bs.getD i 0 % Q)) :
    keyAlice G as bs nb = keyBob G as bs na := by
  have hlA : (keyAlice G as bs nb).length = n := by
    rw [keyAlice_length, hGl, hal, hbl, hnbl]
    simp
  have hlB : (keyBob G as bs na).length = n := by
    rw [keyBob_length, hGl, hal, hbl, hnal]
    simp
  apply List.ext_getElem (by rw [hlA, hlB])
  intro j hj1 hj2
  have hjn : j < n := by rwa [hlA] at hj1
  rw [← List.getD_eq_getElem _ 0 hj1, ← List.getD_eq_getElem _ 0 hj2]
  rw [keyAlice_getD G as bs nb j (by omega) (by omega) (by omega) (by omega),
    keyBob_getD G as bs na j (by omega) (by omega) (by omega) (by omega)]
  have hjG : j < G.length := by omega
  have hja : j < as.length := by omega
  have hjb : j < bs.length := by omega
  have hmem_g : G.getD j 0 ∈ G := by
    rw [List.getD_eq_getElem _ _ hjG]
    exact List.getElem_mem hjG
  have hmem_a : as.getD j 0 ∈ as := by
    rw [List.getD_eq_getElem _ _ hja]
    exact List.getElem_mem hja
  have hmem_b : bs.getD j 0 ∈ bs := by
    rw [List.getD_eq_getElem _ _ hjb]
    exact List.getElem_mem hjb
  obtain ⟨hm1, hm2, hm3⟩ := hmargin j hjn
  exact keyBit_eq_of_margin _ _ _ _ _ (hG _ hmem_g) (has _ hmem_a).1 (has _ hmem_a).2
    (hbs _ hmem_b).1 (hbs _ hmem_b).2 hm1 hm2 hm3

set_option maxRecDepth 8000 in
theorem C1_amended_keys_agree_witness :
    keyAlice [(2 : ℤ) ^ 254] [1] [1] [0] = keyBob [(2 : ℤ) ^ 254] [1] [1] [0] := by
  apply C1_amended_keys_agree [(2 : ℤ) ^ 254] [1] [1] [0] [0] 1 (by simp) (by simp) (by simp)
    (by simp) (by simp)
  · intro g hg
    simp at hg
    subst hg
    positivity
  · intro a ha
    simp at ha
    subst ha
    rw [SECRET_MAX_eq]
    norm_num
  · intro b hb
    simp at hb
    subst hb
    rw [SECRET_MAX_eq]
    norm_num
  · intro i hi
    have hi0 : i = 0 := by omega
    subst hi0
    simp only [List.getD_cons_zero]
    rw [SECRET_MAX_eq, Q_eq]
    norm_num

set_option maxRecDepth 8000 in
/-- C1 counterexample: a reachable draw under the reference parameters where
the two derived keys differ.  Dimension 0 has basis `2^255 - 1`, both secrets
`1` (valid 40-bit secrets), Alice's noise byte `1` (noise `0`) and Bob's noise
byte `2` (noise `+1`); the other 255 dimensions are inert.  Alice's shared
value is `2^255` (bit 1) while Bob's is `2^255 - 1` (bit 0), so the claim that
the keys agree for every sequence of draws is false. -/
theorem C1_counterexample :
    keyAlice ((2 ^ 255 - 1) :: List.replicate 255 0) (1 :: List.replicate 255 1)
        (1 :: List.replicate 255 1) (2 :: List.replicate 255 1)
      ≠ keyBob ((2 ^ 255 - 1) :: List.replicate 255 0) (1 :: List.replicate 255 1)
        (1 :: List.replicate 255 1) (1 :: List.replicate 255 1) := by
  intro h
  have h0 := congrArg (fun l => l.getD 0 0) h
  simp only at h0
  rw [keyAlice_getD _ _ _ _ 0 (by simp) (by simp) (by simp) (by simp),
    keyBob_getD _ _ _ _ 0 (by simp) (by simp) (by simp) (by simp)] at h0
  simp only [List.getD_cons_zero] at h0
  have hg0 : (0 : ℤ) ≤ 2 ^ 255 - 1 := by norm_num
  have e1 : publicValue (2 ^ 255 - 1) 1 = 2 ^ 255 - 1 := by
    rw [publicValue_eq_emod _ _ hg0 zero_le_one, mul_one,
      Int.emod_eq_of_lt hg0 (by rw [Q_eq]; norm_num)]
  have e2 : addNoise (2 ^ 255 - 1) 2 = 2 ^ 255 := by
    rw [addNoise_eq_emod _ _ hg0]
    have hn : noiseFromByte 2 = 1 := by norm_num [noiseFromByte]
    rw [hn, show (2 : ℤ) ^ 255 - 1 + 1 = 2 ^ 255 by ring]
    exact Int.emod_eq_of_lt (by positivity) (by rw [Q_eq]; norm_num)
  have e3 : addNoise (2 ^ 255 - 1) 1 = 2 ^ 255 - 1 := by
    rw [addNoise_eq_emod _ _ hg0]
    have hn : noiseFromByte 1 = 0 := by norm_num [noiseFromByte]
    rw [hn, add_zero]
    exact Int.emod_eq_of_lt hg0 (by rw [Q_eq]; norm_num)
  have e4 : sharedValue (2 ^ 255) 1 = 2 ^ 255 := by
    rw [sharedValue_eq_emod _ _ (by positivity) zero_le_one, mul_one]
    exact Int.emod_eq_of_lt (by positivity) (by rw [Q_eq]; norm_num)
  have e5 : sharedValue (2 ^ 255 - 1) 1 = 2 ^ 255 - 1 := by
    rw [sharedValue_eq_emod _ _ hg0 zero_le_one, mul_one]
    exact Int.emod_eq_of_lt hg0 (by rw [Q_eq]; norm_num)
  have e6 : extractBit (2 ^ 255 : ℤ) = 1 := by
    rw [extractBit_eq_ite _ (by positivity) (by rw [Q_eq]; norm_num), if_pos le_rfl]
  have e7 : extractBit (2 ^ 255 - 1 : ℤ) = 0 := by
    rw [extractBit_eq_ite _ hg0 (by rw [Q_eq]; norm_num), if_neg (by norm_num)]
  rw [e1, e2, e3, e4, e5, e6, e7] at h0
  norm_num at h0

/-! ## Claim C7: key assembly is most-significant-bit first -/

theorem horner_eq_sum (B : ℤ) (l : List ℤ) :
    horner B l = ∑ i ∈ Finset.range l.length, l.getD i 0 * B ^ (l.length - 1 - i) := by
  induction l with
  | nil => simp [horner]
  | cons d t ih =>
    rw [horner_cons, ih, List.length_cons, Finset.sum_range_succ']
    have h1 : ∀ i ∈ Finset.range t.length,
        (d :: t).getD (i + 1) 0 * B ^ (t.length + 1 - 1 - (i + 1))
          = t.getD i 0 * B ^ (t.length - 1 - i) := by
      intro i hi
      rw [List.getD_cons_succ]
      have he : t.length + 1 - 1 - (i + 1) = t.length - 1 - i := by omega
      rw [he]
    rw [Finset.sum_congr rfl h1]
    simp only [List.getD_cons_zero, Nat.add_sub_cancel, Nat.sub_zero]
    ring

/-- C7: key assembly concatenates the bits most significant first:
`bitsToBigInt bits = Σ_i bits[i] · 2^(n−1−i)`, so dimension 0 becomes the most
significant bit of the assembled key. -/
theorem C7_bitsToBigInt_msb_first (bits : List ℤ) (h : ∀ b ∈ bits, b = 0 ∨ b = 1) :
    bitsToBigInt bits
      = ∑ i ∈ Finset.range bits.length, bits.getD i 0 * 2 ^ (bits.length - 1 - i) := by
  rw [bitsToBigInt_eq_horner bits h, horner_eq_sum]

theorem C7_bitsToBigInt_msb_first_witness :
    bitsToBigInt [1, 0, 1]
      = ∑ i ∈ Finset.range ([1, 0, 1] : List ℤ).length,
          ([1, 0, 1] : List ℤ).getD i 0 * 2 ^ (([1, 0, 1] : List ℤ).length - 1 - i) :=
  C7_bitsToBigInt_msb_first [1, 0, 1] (by decide)

/-! ## Claim C8: hexadecimal round trip -/

/-- `n.toString(16)` for a non-negative BigInt: the list of hexadecimal digit
values, most significant first (`"0"` for zero), mirroring line
`keyAliceBigInt.toString(16)` of the source. -/
def hexDigits (n : ℕ) : List ℕ := if n = 0 then [0] else (Nat.digits 16 n).reverse

/-- `.padStart(64, '0')`: left-pad the digit string to the given width with
zero digits. -/
def padStart (s : List ℕ) (width : ℕ) : List ℕ := List.replicate (width - s.length) 0 ++ s

/-- Modelled from the spec: decoding the fixed-width hexadecimal string back to
the integer it denotes (the round-trip decode step has no counterpart in the
source, which only prints the string). -/
def hexDecode (s : List ℕ) : ℕ := s.foldl (fun acc d => 16 * acc + d) 0

/-- Modelled from the spec: re-extracting the `width` bits of an integer, most
significant first (the round-trip re-extraction step has no counterpart in the
source).  Bit `i` is `(n / 2^(width−1−i)) mod 2`. -/
def extractBits (width : ℕ) (n : ℕ) : List ℤ := unhorner 2 width (n : ℤ)

theorem hexDecode_replicate_append (k : ℕ) (s : List ℕ) :
    hexDecode (List.replicate k 0 ++ s) = hexDecode s := by
  induction k with
  | zero => rfl
  | succ k ih =>
    rw [List.replicate_succ, List.cons_append, hexDecode, List.foldl_cons]
    simpa [hexDecode] using ih

theorem hexDecode_reverse_ofDigits (l : List ℕ) : hexDecode l.reverse = Nat.ofDigits 16 l := by
  induction l with
  | nil => rfl
  | cons d t ih =>
    rw [List.reverse_cons, hexDecode, List.foldl_append]
    rw [show List.foldl (fun acc d => 16 * acc + d) 0 t.reverse = hexDecode t.reverse from rfl]
    simp only [List.foldl_cons, List.foldl_nil]
    rw [ih, Nat.ofDigits_cons]
    ring

theorem hexDecode_hexDigits (n : ℕ) : hexDecode (hexDigits n) = n := by
  rw [hexDigits]
  by_cases hn : n = 0
  · rw [if_pos hn, hn]
    rfl
  · rw [if_neg hn, hexDecode_reverse_ofDigits, Nat.ofDigits_digits]

set_option maxRecDepth 8000 in
/-- C8: for every sequence of 256 bits, encoding with `bitsToBigInt`, rendering
as the 64-digit zero-padded hexadecimal string, decoding that string back and
re-extracting 256 bits reproduces the original bit sequence. -/
theorem C8_hex_roundtrip (bits : List ℤ) (hlen : bits.length = 256)
    (h : ∀ b ∈ bits, b = 0 ∨ b = 1) :
    extractBits 256 (hexDecode (padStart (hexDigits (bitsToBigInt bits).toNat) 64)) = bits := by
  have hv : bitsToBigInt bits = horner 2 bits := bitsToBigInt_eq_horner bits h
  have hvalid : ∀ d ∈ bits, 0 ≤ d ∧ d < 2 := by
    intro d hd
    rcases h d hd with rfl | rfl <;> norm_num
  have h0 : 0 ≤ horner 2 bits := horner_nonneg 2 bits (by norm_num) fun d hd => (hvalid d hd).1
  have hlt : horner 2 bits < 2 ^ 256 := by
    have := horner_lt 2 bits (by norm_num) hvalid
    rwa [hlen] at this
  have hmz : (((bitsToBigInt bits).toNat : ℕ) : ℤ) = horner 2 bits := by
    rw [hv, Int.toNat_of_nonneg h0]
  have hdec : hexDecode (padStart (hexDigits (bitsToBigInt bits).toNat) 64)
      = (bitsToBigInt bits).toNat := by
    rw [padStart, hexDecode_replicate_append, hexDecode_hexDigits]
  rw [hdec, extractBits]
  have hu := unhorner_spec 2 (by norm_num) 256 (((bitsToBigInt bits).toNat : ℕ) : ℤ)
    (by positivity) (by rw [hmz]; exact hlt)
  apply horner_inj 2 (by norm_num) _ bits hu.1 hvalid
  · rw [unhorner_length, hlen]
  · rw [hu.2, hmz]

set_option maxRecDepth 8000 in
theorem C8_hex_roundtrip_witness :
    extractBits 256 (hexDecode (padStart
        (hexDigits (bitsToBigInt (List.replicate 256 1)).toNat) 64))
      = List.replicate 256 1 :=
  C8_hex_roundtrip (List.replicate 256 1) (by simp)
    (by
      intro b hb
      rw [List.eq_of_mem_replicate hb]
      right
      rfl)

/-! ## Claim C5: the random draw -/

/-- Split `r` into `k` bytes, most significant first (the inverse of the
big-endian byte assembly in `randomBigInt`). -/
def byteSplit (k r : ℕ) : List ℕ := (List.range k).map (fun i => r / 256 ^ (k - 1 - i) % 256)

theorem byteSplit_length (k r : ℕ) : (byteSplit k r).length = k := by simp [byteSplit]

theorem byteSplit_lt (k r : ℕ) : ∀ b ∈ byteSplit k r, b < 256 := by
  intro b hb
  rw [byteSplit] at hb
  obtain ⟨i, _, rfl⟩ := List.mem_map.mp hb
  exact Nat.mod_lt _ (by norm_num)

theorem byteSplit_cast (k r : ℕ) :
    (byteSplit k r).map (fun (b : ℕ) => (b : ℤ)) = unhorner 256 k (r : ℕ) := by
  rw [byteSplit, unhorner, List.map_map]
  apply List.map_congr_left
  intro i _
  simp only [Function.comp_apply]
  push_cast
  rfl

theorem assembleBytes_byteSplit (k r : ℕ) (hr : r < 256 ^ k) :
    assembleBytes (byteSplit k r) = (r : ℤ) := by
  rw [assembleBytes_eq_horner, byteSplit_cast]
  exact (unhorner_spec 256 (by norm_num) k (r : ℤ) (by positivity) (by exact_mod_cast hr)).2

theorem randomBigInt_range (max : ℤ) (hmax : 1 ≤ max) (array : List ℕ) :
    0 ≤ randomBigInt max array ∧ randomBigInt max array < max := by
  have h0 : 0 ≤ assembleBytes array := by
    rw [assembleBytes_eq_horner]
    apply horner_nonneg _ _ (by norm_num)
    intro d hd
    obtain ⟨b, _, rfl⟩ := List.mem_map.mp hd
    positivity
  exact ⟨Int.tmod_nonneg max h0, Int.tmod_lt_of_pos _ (by omega)⟩

theorem assembleBytes_inj (k : ℕ) (l1 l2 : List ℕ) (h1 : l1.length = k) (h2 : l2.length = k)
    (hv1 : ∀ b ∈ l1, b < 256) (hv2 : ∀ b ∈ l2, b < 256)
    (heq : assembleBytes l1 = assembleBytes l2) : l1 = l2 := by
  have hcast : l1.map (fun (b : ℕ) => (b : ℤ)) = l2.map (fun (b : ℕ) => (b : ℤ)) := by
    apply horner_inj 256 (by norm_num)
    · intro d hd
      obtain ⟨b, hb, rfl⟩ := List.mem_map.mp hd
      exact ⟨by positivity, by exact_mod_cast hv1 b hb⟩
    · intro d hd
      obtain ⟨b, hb, rfl⟩ := List.mem_map.mp hd
      exact ⟨by positivity, by exact_mod_cast hv2 b hb⟩
    · simp [h1, h2]
    · rw [← assembleBytes_eq_horner, ← assembleBytes_eq_horner, heq]
  have hinj : Function.Injective (fun (b : ℕ) => (b : ℤ)) := fun a b h => by simpa using h
  exact List.map_injective_iff.mpr hinj hcast

theorem randomBigInt_count (max : ℤ) (hmax : 1 ≤ max) (v : ℤ) (h0 : 0 ≤ v) (hv : v < max) :
    ((Finset.range (256 ^ bytesNeeded max)).filter
        (fun r => randomBigInt max (byteSplit (bytesNeeded max) r) = v)).card
      = 256 ^ bytesNeeded max / max.toNat
        + if v < (256 ^ bytesNeeded max : ℤ) % max then 1 else 0 := by
  set k := bytesNeeded max with hk
  have hmaxM : max = (max.toNat : ℤ) := (Int.toNat_of_nonneg (by omega)).symm
  have hM1 : 1 ≤ max.toNat := by omega
  have hvw : v = (v.toNat : ℤ) := (Int.toNat_of_nonneg h0).symm
  have hwM : v.toNat < max.toNat := by omega
  have hcong : ∀ r ∈ Finset.range (256 ^ k),
      (randomBigInt max (byteSplit k r) = v ↔ r % max.toNat = v.toNat) := by
    intro r hr
    rw [Finset.mem_range] at hr
    rw [randomBigInt, assembleBytes_byteSplit _ r hr]
    conv_lhs => rw [hmaxM, hvw]
    rw [← Int.ofNat_tmod]
    exact ⟨fun h => by exact_mod_cast h, fun h => by exact_mod_cast h⟩
  rw [Finset.filter_congr hcong]
  have hcount := Nat.count_modEq_card (256 ^ k) (show 0 < max.toNat by omega) v.toNat
  rw [Nat.count_eq_card_filter_range] at hcount
  have hfe : ((Finset.range (256 ^ k)).filter
        (fun r => r % max.toNat = v.toNat)).card
      = ((Finset.range (256 ^ k)).filter
        (fun r => r ≡ v.toNat [MOD max.toNat])).card := by
    congr 1
    apply Finset.filter_congr
    intro x _
    unfold Nat.ModEq
    rw [Nat.mod_eq_of_lt hwM]
  rw [hfe, hcount, Nat.mod_eq_of_lt hwM]
  congr 1
  have hiff : (v < (256 ^ k : ℤ) % max)
      ↔ (v.toNat < 256 ^ k % max.toNat) := by
    conv_lhs => rw [hvw, hmaxM]
    rw [show ((256 : ℤ) ^ k) = ((256 ^ k : ℕ) : ℤ) by push_cast; rfl]
    rw [← Int.ofNat_emod]
    exact_mod_cast Iff.rfl
  rw [if_congr hiff rfl rfl]

/-- C5 amended: `randomBigInt(max)` always returns a value in `[0, max)`, and
byte sequences of the drawn length correspond one-to-one to assembled values
`r < 256^bytes`; but the output is only near-uniform, not uniform: value `v`
is hit by `⌊256^bytes / max⌋ + 1` assembled draws when `v < 256^bytes mod max`
and by `⌊256^bytes / max⌋` draws otherwise (so counts differ by one unless
`max` divides `256^bytes`). -/
theorem C5_amended_randomBigInt (max : ℤ) (hmax : 1 ≤ max) :
    (∀ array : List ℕ, 0 ≤ randomBigInt max array ∧ randomBigInt max array < max) ∧
    (∀ r : ℕ, r < 256 ^ bytesNeeded max →
      ((byteSplit (bytesNeeded max) r).length = bytesNeeded max ∧
        (∀ b ∈ byteSplit (bytesNeeded max) r, b < 256) ∧
        assembleBytes (byteSplit (bytesNeeded max) r) = (r : ℤ)) ∧
      (∀ array : List ℕ, array.length = bytesNeeded max → (∀ b ∈ array, b < 256) →
        assembleBytes array = (r : ℤ) → array = byteSplit (bytesNeeded max) r)) ∧
    (∀ v : ℤ, 0 ≤ v → v < max →
      ((Finset.range (256 ^ bytesNeeded max)).filter
          (fun r => randomBigInt max (byteSplit (bytesNeeded max) r) = v)).card
        = 256 ^ bytesNeeded max / max.toNat
          + if v < (256 ^ bytesNeeded max : ℤ) % max then 1 else 0) := by
  refine ⟨randomBigInt_range max hmax, ?_, randomBigInt_count max hmax⟩
  intro r hr
  refine ⟨⟨byteSplit_length _ _, byteSplit_lt _ _, assembleBytes_byteSplit _ _ hr⟩, ?_⟩
  intro array hlen hvalid heq
  exact assembleBytes_inj (bytesNeeded max) array (byteSplit (bytesNeeded max) r) hlen
    (byteSplit_length _ _) hvalid (byteSplit_lt _ _)
    (by rw [heq, assembleBytes_byteSplit _ _ hr])

theorem C5_amended_randomBigInt_witness :
    (0 ≤ randomBigInt 3 [200] ∧ randomBigInt 3 [200] < 3) ∧
    ((Finset.range (256 ^ bytesNeeded 3)).filter
        (fun r => randomBigInt 3 (byteSplit (bytesNeeded 3) r) = 0)).card
      = 256 ^ bytesNeeded 3 / (3 : ℤ).toNat
        + if (0 : ℤ) < (256 ^ bytesNeeded 3 : ℤ) % 3 then 1 else 0 := by
  have h := C5_amended_randomBigInt 3 (by norm_num)
  exact ⟨h.1 [200], h.2.2 0 le_rfl (by norm_num)⟩

theorem bytesNeeded_three : bytesNeeded 3 = 1 := by
  have h3 : (3 : ℤ).toNat = 3 := rfl
  rw [bytesNeeded, h3, bitLengthJs, if_neg (by norm_num)]
  have hlo : 1 ≤ Nat.log2 3 := (Nat.le_log2 (by norm_num)).mpr (by norm_num)
  have hhi : Nat.log2 3 < 2 := (Nat.log2_lt (by norm_num)).mpr (by norm_num)
  omega

/-- C5 counterexample: for bound 3 the draw uses one byte, and the 256 byte
values do not distribute uniformly over the outputs: 86 bytes map to `0` but
only 85 map to `1`, refuting exact uniformity for every bound. -/
theorem C5_counterexample :
    bytesNeeded 3 = 1 ∧
    ((Finset.range 256).filter (fun r => randomBigInt 3 [r] = 0)).card = 86 ∧
    ((Finset.range 256).filter (fun r => randomBigInt 3 [r] = 1)).card = 85 ∧
    ¬ ((Finset.range 256).filter (fun r => randomBigInt 3 [r] = 0)).card
        = ((Finset.range 256).filter (fun r => randomBigInt 3 [r] = 1)).card :=
  ⟨bytesNeeded_three, by decide, by decide, by decide⟩
